import Mathlib

/-!
Verification of the fantasy draft lottery randomizer
(`fantasydraftlotteryrandomizer.py`).

The development shallowly embeds the lottery draw loop of
`LotteryResultWindow.run_lottery`, the odds computation
`LotteryResultWindow.exact_pick_odds`, and the odds-matrix construction of
`LotteryResultWindow.save_lottery_result`.

Modelling conventions:
- Python floats are modelled as exact rationals.
- `random.choice(pool)` is modelled by a stream of natural numbers
  `idxs : Nat -> Nat`; at the draw when `selected` has length `s` the code
  picks the entry at index `idxs s % pool.length`.  On an empty pool
  `random.choice` raises `IndexError`, modelled by `none`.
- In-place mutation of the `manager_balls` list inside `exact_pick_odds`
  is modelled by explicit state passing (`OddsState`); the list the Python
  function has mutated when it returns is `exact_pick_odds_final_balls`.
-/

namespace FantasyLottery

/-- The entry pool of `run_lottery`: `for manager, ball_count in
zip(order, balls): pool.extend([manager] * ball_count)`.  Note that Python
`zip` silently truncates to the shorter of the two lists. -/
def build_pool (order : List String) (balls : List Nat) : List String :=
  (order.zip balls).flatMap (fun mb => List.replicate mb.2 mb.1)

/-- The draw loop of `run_lottery`:
`while len(selected_order) < len(managers): pick = random.choice(pool);
selected_order.append(pick); pool = [p for p in pool if p != pick]`.
The fuel argument counts the iterations still needed to reach
`len(managers)`; each Python iteration appends exactly one pick, so the
loop body runs at most that many times.  `none` models the `IndexError`
raised by `random.choice` on an empty pool. -/
def draw_loop (idxs : Nat → Nat) : Nat → List String → List String → Option (List String)
  | 0, selected, _pool => some selected
  | k + 1, selected, pool =>
    match pool.get? (idxs selected.length % pool.length) with
    | none => none
    | some pick => draw_loop idxs k (selected ++ [pick]) (pool.filter (fun p => p != pick))

/-- `LotteryResultWindow.run_lottery`: build the pool from the resolved
distribution data, then draw until `len(selected_order) ==
len(self.league['managers'])`. -/
def run_lottery (idxs : Nat → Nat) (managers order : List String)
    (balls : List Nat) : Option (List String) :=
  draw_loop idxs managers.length [] (build_pool order balls)

/-- The mutable state of `exact_pick_odds`: the (mutated) `manager_balls`
list, the `remaining_balls` counter and the accumulated
`pick_probabilities`. -/
structure OddsState where
  manager_balls : List ℚ
  remaining_balls : ℚ
  pick_probabilities : List (List ℚ)
deriving DecidableEq

/-- One iteration of the `for i in range(pick_position)` loop of
`exact_pick_odds`: append `[balls / remaining_balls for balls in
manager_balls]`, and when `shrink` holds (`i < pick_position - 1`) replace
each `manager_balls[j]` by
`manager_balls[j] * (remaining_balls - manager_balls[j]) / remaining_balls`
and decrement `remaining_balls`. -/
def odds_step (shrink : Bool) (st : OddsState) : OddsState :=
  let st1 : OddsState :=
    { st with pick_probabilities :=
        st.pick_probabilities ++
          [st.manager_balls.map (fun balls => balls / st.remaining_balls)] }
  if shrink then
    { st1 with
        manager_balls := st1.manager_balls.map
          (fun b => b * ((st1.remaining_balls - b) / st1.remaining_balls)),
        remaining_balls := st1.remaining_balls - 1 }
  else st1

/-- The `for i in range(pick_position)` loop of `exact_pick_odds`; the
first argument is the number of iterations still to run and the second is
the current loop index `i`. -/
def odds_loop (pick_position : Nat) : Nat → Nat → OddsState → OddsState
  | 0, _i, st => st
  | n + 1, i, st =>
    odds_loop pick_position n (i + 1) (odds_step (decide (i < pick_position - 1)) st)

/-- `LotteryResultWindow.exact_pick_odds`: run the loop and return
`pick_probabilities[-1]` (`none` models the `IndexError` Python raises on
an empty list, which happens only for `pick_position = 0`). -/
def exact_pick_odds (manager_balls : List ℚ) (total_balls : ℚ)
    (pick_position : Nat) : Option (List ℚ) :=
  (odds_loop pick_position pick_position 0
      ⟨manager_balls, total_balls, []⟩).pick_probabilities.getLast?

/-- The contents of the caller-supplied `manager_balls` list when
`exact_pick_odds` returns: the function mutates the list in place. -/
def exact_pick_odds_final_balls (manager_balls : List ℚ) (total_balls : ℚ)
    (pick_position : Nat) : List ℚ :=
  (odds_loop pick_position pick_position 0
      ⟨manager_balls, total_balls, []⟩).manager_balls

/-- The exact odds matrix built in `save_lottery_result`:
`for i in range(len(selected_order)):
matrix.append(exact_pick_odds(list(manager_balls.values()), total_balls, i + 1))`.
The fresh `list(...)` copy taken for every pick position is modelled by
passing the same immutable `balls` to every row. -/
def exact_odds_matrix (balls : List ℚ) (total_balls : ℚ)
    (selected_order : List String) : List (Option (List ℚ)) :=
  (List.range selected_order.length).map
    (fun i => exact_pick_odds balls total_balls (i + 1))

/-- `first_overall_odds = (ball_count / total_balls) * 100` from the
report table of `save_lottery_result`. -/
def first_overall_odds (ball_count total_balls : ℚ) : ℚ :=
  ball_count / total_balls * 100

/-- `this_pick_odds = exact_odds_matrix[idx][manager_index] * 100` from
the report table of `save_lottery_result`. -/
def this_pick_odds (matrix_entry : ℚ) : ℚ :=
  matrix_entry * 100

/-- The odds part of the report `save_lottery_result` produces: the
simplified first-pick odds of every manager together with the exact odds
matrix. -/
def lottery_odds_report (balls : List ℚ) (total_balls : ℚ)
    (selected_order : List String) : List ℚ × List (Option (List ℚ)) :=
  (balls.map (fun b => first_overall_odds b total_balls),
   exact_odds_matrix balls total_balls selected_order)

/-- Hypothetical variant of the matrix construction in which the caller
reuses one `manager_balls` list for every pick position instead of taking
a fresh copy, so each row starts from the list as mutated by the previous
call.  Used to show the fresh copies in `save_lottery_result` matter. -/
def shared_rows (total_balls : ℚ) : Nat → List ℚ → Nat → List (Option (List ℚ))
  | 0, _balls, _k => []
  | n + 1, balls, k =>
    exact_pick_odds balls total_balls k ::
      shared_rows total_balls n (exact_pick_odds_final_balls balls total_balls k) (k + 1)

/-- The matrix a caller reusing a single mutated list would obtain. -/
def exact_odds_matrix_shared (balls : List ℚ) (total_balls : ℚ)
    (npicks : Nat) : List (Option (List ℚ)) :=
  shared_rows total_balls npicks balls 1

/-- Modelled from the spec: the ground-truth probability model used by the
brute-force enumeration test.  `perm_prob ws p` is the probability that
the without-replacement, remove-all-copies draw over weights `ws` selects
exactly the index sequence `p`: at each step index `i` is drawn with
probability `ws[i] / ws.sum`, after which the weight of `i` is zeroed. -/
def perm_prob : List ℚ → List Nat → ℚ
  | _ws, [] => 1
  | ws, i :: rest => ws.getD i 0 / ws.sum * perm_prob (ws.set i 0) rest

/-- All ways to insert `x` into a list, used to enumerate orderings. -/
def insert_all (x : Nat) : List Nat → List (List Nat)
  | [] => [[x]]
  | y :: ys => (x :: y :: ys) :: (insert_all x ys).map (fun zs => y :: zs)

/-- All orderings (permutations) of a list of indices. -/
def all_orderings : List Nat → List (List Nat)
  | [] => [[]]
  | x :: xs => (all_orderings xs).flatMap (insert_all x)

/-- Modelled from the spec: brute-force enumeration over all `N!`
orderings — the true probability that participant `j` occupies pick
position `k` (1-indexed). -/
def true_pick_prob (ws : List ℚ) (j k : Nat) : ℚ :=
  ((all_orderings (List.range ws.length)).filter
      (fun p => p.getD (k - 1) ws.length == j)).foldr
    (fun p acc => perm_prob ws p + acc) 0

/-- One shrink pass over the weights at pool size `remaining`, as
performed between consecutive iterations of `exact_pick_odds`. -/
def shrink_balls (balls : List ℚ) (remaining : ℚ) : List ℚ :=
  balls.map (fun b => b * ((remaining - b) / remaining))

/-- The weights and pool size after `s` shrink passes. -/
def odds_after : Nat → List ℚ → ℚ → List ℚ × ℚ
  | 0, balls, remaining => (balls, remaining)
  | s + 1, balls, remaining => odds_after s (shrink_balls balls remaining) (remaining - 1)

/-! ## Lemmas about the draw loop -/

/-- A participant is in the entry pool iff it occurs in `order`, provided
the two arrays have equal length and every weight is at least 1. -/
theorem build_pool_mem (order : List String) (balls : List Nat)
    (hlen : balls.length = order.length) (hpos : ∀ b ∈ balls, 1 ≤ b) (p : String) :
    p ∈ build_pool order balls ↔ p ∈ order := by
  induction order generalizing balls with
  | nil => simp [build_pool]
  | cons o os ih =>
    cases balls with
    | nil => simp at hlen
    | cons b bs =>
      have hb : 1 ≤ b := hpos b (by simp)
      have hlen2 : bs.length = os.length := by simpa using hlen
      have hpos2 : ∀ x ∈ bs, 1 ≤ x := fun x hx => hpos x (by simp [hx])
      have hun : build_pool (o :: os) (b :: bs) =
          List.replicate b o ++ build_pool os bs := rfl
      rw [hun, List.mem_append, List.mem_replicate, ih bs hlen2 hpos2, List.mem_cons]
      constructor
      · rintro (⟨-, rfl⟩ | h)
        · exact Or.inl rfl
        · exact Or.inr h
      · rintro (rfl | h)
        · exact Or.inl ⟨by omega, rfl⟩
        · exact Or.inr h

/-- Main invariant of the draw loop: when the pool holds exactly the
not-yet-selected participants of a duplicate-free `order` and the fuel
matches the number of participants still missing, the loop succeeds and
extends `selected` to a permutation of `order`. -/
theorem draw_loop_perm (idxs : Nat → Nat) (order : List String) (ho : order.Nodup) :
    ∀ (k : Nat) (selected pool : List String), selected.Nodup →
      (∀ p ∈ selected, p ∈ order) →
      (∀ p, p ∈ pool ↔ p ∈ order ∧ p ∉ selected) →
      selected.length + k = order.length →
      ∃ res, draw_loop idxs k selected pool = some res ∧ res.Perm order := by
  intro k
  induction k with
  | zero =>
    intro selected _pool hnd hsub _hpool hlen
    exact ⟨selected, rfl, (hnd.subperm hsub).perm_of_length_le (by omega)⟩
  | succ k ih =>
    intro selected pool hnd hsub hpool hlen
    have hex : ∃ q, q ∈ order ∧ q ∉ selected := by
      by_contra hcon
      push_neg at hcon
      have hsubo : order ⊆ selected := fun q hq => hcon q hq
      have := (ho.subperm hsubo).length_le
      omega
    obtain ⟨q, hqo, hqs⟩ := hex
    have hqpool : q ∈ pool := (hpool q).2 ⟨hqo, hqs⟩
    have hlenpool : 0 < pool.length := List.length_pos.2 (List.ne_nil_of_mem hqpool)
    have hidx : idxs selected.length % pool.length < pool.length :=
      Nat.mod_lt _ hlenpool
    have hget : pool.get? (idxs selected.length % pool.length) =
        some (pool.get ⟨idxs selected.length % pool.length, hidx⟩) :=
      List.get?_eq_get hidx
    set pick := pool.get ⟨idxs selected.length % pool.length, hidx⟩ with hpick
    have hpickmem : pick ∈ pool := List.get?_mem hget
    obtain ⟨hpicko, hpicks⟩ := (hpool pick).1 hpickmem
    have hstep : draw_loop idxs (k + 1) selected pool =
        draw_loop idxs k (selected ++ [pick]) (pool.filter (fun p => p != pick)) := by
      simp only [draw_loop, hget]
    rw [hstep]
    apply ih
    · simp [List.nodup_append, hnd, hpicks]
    · intro p hp
      rcases List.mem_append.1 hp with h | h
      · exact hsub p h
      · simp only [List.mem_singleton] at h
        exact h ▸ hpicko
    · intro p
      simp only [List.mem_filter, bne_iff_ne, ne_eq, List.mem_append,
        List.mem_singleton, hpool p, decide_eq_true_eq]
      tauto
    · simp only [List.length_append, List.length_singleton]
      omega

/-- A successful draw returns exactly `selected.length + fuel` picks. -/
theorem draw_loop_some_length (idxs : Nat → Nat) :
    ∀ (k : Nat) (selected pool res : List String),
      draw_loop idxs k selected pool = some res → res.length = selected.length + k := by
  intro k
  induction k with
  | zero =>
    intro selected pool res h
    simp only [draw_loop, Option.some_inj] at h
    simp [← h]
  | succ k ih =>
    intro selected pool res h
    simp only [draw_loop] at h
    cases hget : pool.get? (idxs selected.length % pool.length) with
    | none => rw [hget] at h; cases h
    | some pick =>
      rw [hget] at h
      have := ih (selected ++ [pick]) (pool.filter (fun p => p != pick)) res h
      simp only [List.length_append, List.length_singleton] at this
      omega

/-- A successful draw of `k` picks requires at least `k` distinct
participants in the pool: every draw removes all copies of one
participant. -/
theorem draw_loop_some_card (idxs : Nat → Nat) :
    ∀ (k : Nat) (selected pool res : List String),
      draw_loop idxs k selected pool = some res → k ≤ pool.toFinset.card := by
  intro k
  induction k with
  | zero => intro _ _ _ _; omega
  | succ k ih =>
    intro selected pool res h
    simp only [draw_loop] at h
    cases hget : pool.get? (idxs selected.length % pool.length) with
    | none => rw [hget] at h; cases h
    | some pick =>
      rw [hget] at h
      have hpickmem : pick ∈ pool := List.get?_mem hget
      have hfil : (pool.filter (fun p => p != pick)).toFinset =
          pool.toFinset.erase pick := by
        ext x
        simp [List.mem_filter, Finset.mem_erase, and_comm]
      have hk := ih (selected ++ [pick]) (pool.filter (fun p => p != pick)) res h
      rw [hfil, Finset.card_erase_of_mem (List.mem_toFinset.2 hpickmem)] at hk
      have hcard1 : 0 < pool.toFinset.card :=
        Finset.card_pos.2 ⟨pick, List.mem_toFinset.2 hpickmem⟩
      omega

/-! ## Lemmas about the odds computation -/

/-- Unfolding of a non-shrinking iteration of `exact_pick_odds`. -/
theorem odds_step_false (st : OddsState) :
    odds_step false st =
      { st with pick_probabilities := st.pick_probabilities ++
          [st.manager_balls.map (fun b => b / st.remaining_balls)] } := rfl

/-- Unfolding of a shrinking iteration of `exact_pick_odds`. -/
theorem odds_step_true (st : OddsState) :
    odds_step true st =
      { manager_balls := shrink_balls st.manager_balls st.remaining_balls,
        remaining_balls := st.remaining_balls - 1,
        pick_probabilities := st.pick_probabilities ++
          [st.manager_balls.map (fun b => b / st.remaining_balls)] } := rfl

/-- Characterisation of the `exact_pick_odds` loop: running the last `n`
of the `k` iterations performs `n - 1` shrink passes, and the last
appended probability row is the shrunk weights divided by the final pool
size. -/
theorem odds_loop_run (n : Nat) :
    ∀ (k i : Nat) (st : OddsState), i + n = k → 1 ≤ n →
      (odds_loop k n i st).manager_balls =
          (odds_after (n - 1) st.manager_balls st.remaining_balls).1 ∧
      (odds_loop k n i st).remaining_balls =
          (odds_after (n - 1) st.manager_balls st.remaining_balls).2 ∧
      (odds_loop k n i st).pick_probabilities.getLast? =
        some ((odds_after (n - 1) st.manager_balls st.remaining_balls).1.map
          (fun b => b / (odds_after (n - 1) st.manager_balls st.remaining_balls).2)) := by
  induction n with
  | zero => intro k i st _ h1; omega
  | succ m ih =>
    intro k i st hik _
    cases m with
    | zero =>
      have hd : decide (i < k - 1) = false := decide_eq_false (by omega)
      have h1 : odds_loop k 1 i st = odds_step false st := by
        simp [odds_loop, hd]
      rw [h1, odds_step_false]
      refine ⟨rfl, rfl, ?_⟩
      simp [odds_after, List.getLast?_concat]
    | succ mm =>
      have hd : decide (i < k - 1) = true := decide_eq_true (by omega)
      have h1 : odds_loop k (mm + 1 + 1) i st =
          odds_loop k (mm + 1) (i + 1) (odds_step true st) := by
        simp [odds_loop, hd]
      have h2 := ih k (i + 1) (odds_step true st) (by omega) (by omega)
      rw [odds_step_true] at h2
      rw [h1]
      simp only [Nat.add_sub_cancel] at h2 ⊢
      have h3 : odds_after (mm + 1) st.manager_balls st.remaining_balls =
          odds_after mm (shrink_balls st.manager_balls st.remaining_balls)
            (st.remaining_balls - 1) := rfl
      rw [h3]
      exact h2

/-- For a positive pick position, `exact_pick_odds` returns the weights
after `pick_position - 1` shrink passes, divided by the final pool size. -/
theorem exact_pick_odds_eq (balls : List ℚ) (total : ℚ) (k : Nat) (hk : 1 ≤ k) :
    exact_pick_odds balls total k =
      some ((odds_after (k - 1) balls total).1.map
        (fun b => b / (odds_after (k - 1) balls total).2)) :=
  (odds_loop_run k k 0 ⟨balls, total, []⟩ (by omega) hk).2.2

/-- The mutated weights list left behind by `exact_pick_odds` is the
result of `pick_position - 1` shrink passes over the input. -/
theorem exact_pick_odds_final_balls_eq (balls : List ℚ) (total : ℚ) (k : Nat)
    (hk : 1 ≤ k) :
    exact_pick_odds_final_balls balls total k = (odds_after (k - 1) balls total).1 :=
  (odds_loop_run k k 0 ⟨balls, total, []⟩ (by omega) hk).1

/-- One shrink pass keeps every weight in `[0, remaining - 1]` provided
all weights were in `[0, remaining]` and the pool held at least 2. -/
theorem shrink_balls_bounds (balls : List ℚ) (R : ℚ) (hR : 2 ≤ R)
    (hb : ∀ b ∈ balls, 0 ≤ b ∧ b ≤ R) :
    ∀ b ∈ shrink_balls balls R, 0 ≤ b ∧ b ≤ R - 1 := by
  intro x hx
  simp only [shrink_balls, List.mem_map] at hx
  obtain ⟨b, hbm, rfl⟩ := hx
  obtain ⟨hb0, hbR⟩ := hb b hbm
  have hR0 : (0 : ℚ) < R := by linarith
  constructor
  · exact mul_nonneg hb0 (div_nonneg (by linarith) (le_of_lt hR0))
  · have heq : b * ((R - b) / R) = b * (R - b) / R := by ring
    rw [heq, div_le_iff₀ hR0]
    nlinarith [sq_nonneg (2 * b - R)]

/-- After `s` shrink passes the pool size is `R - s` and every weight
lies in `[0, R - s]`. -/
theorem odds_after_bounds (s : Nat) :
    ∀ (balls : List ℚ) (R : ℚ), (∀ b ∈ balls, 0 ≤ b ∧ b ≤ R) → (s : ℚ) + 1 ≤ R →
      (odds_after s balls R).2 = R - s ∧
        ∀ b ∈ (odds_after s balls R).1, 0 ≤ b ∧ b ≤ R - s := by
  induction s with
  | zero => intro balls R hb _; simpa [odds_after] using hb
  | succ s ih =>
    intro balls R hb hR
    have hs0 : (0 : ℚ) ≤ (s : ℚ) := Nat.cast_nonneg s
    have hR2 : 2 ≤ R := by push_cast at hR; linarith
    have hshr := shrink_balls_bounds balls R hR2 hb
    have hrec := ih (shrink_balls balls R) (R - 1) hshr (by push_cast at hR ⊢; linarith)
    have hun : odds_after (s + 1) balls R =
        odds_after s (shrink_balls balls R) (R - 1) := rfl
    rw [hun]
    obtain ⟨h2, h1⟩ := hrec
    refine ⟨by rw [h2]; push_cast; ring, fun b hbm => ?_⟩
    obtain ⟨hbl, hbu⟩ := h1 b hbm
    refine ⟨hbl, le_trans hbu (le_of_eq ?_)⟩
    push_cast
    ring

/-- Composition of pointwise relations on lists. -/
theorem forall₂_comp {α : Type} {r s t : α → α → Prop}
    (hc : ∀ a b c, r a b → s b c → t a c) :
    ∀ {l1 l2 l3 : List α}, List.Forall₂ r l1 l2 → List.Forall₂ s l2 l3 →
      List.Forall₂ t l1 l3 := by
  intro l1 l2 l3 h1 h2
  induction h1 generalizing l3 with
  | nil => cases h2; exact List.Forall₂.nil
  | cons ha _ ih =>
    cases h2 with
    | cons hb hm => exact List.Forall₂.cons (hc _ _ _ ha hb) (ih hm)

/-- One shrink pass never increases a nonnegative weight. -/
theorem shrink_balls_le (balls : List ℚ) (R : ℚ) (hR : 0 < R)
    (hb : ∀ b ∈ balls, 0 ≤ b ∧ b ≤ R) :
    List.Forall₂ (· ≤ ·) (shrink_balls balls R) balls := by
  rw [shrink_balls, List.forall₂_map_left_iff, List.forall₂_same]
  intro b hbm
  obtain ⟨hb0, _⟩ := hb b hbm
  have ht : (R - b) / R ≤ 1 := by
    rw [div_le_one hR]; linarith
  calc b * ((R - b) / R) ≤ b * 1 := mul_le_mul_of_nonneg_left ht hb0
    _ = b := mul_one b

/-- One shrink pass strictly decreases every weight that is at least 1. -/
theorem shrink_balls_lt (balls : List ℚ) (R : ℚ) (hR : 0 < R)
    (hb : ∀ b ∈ balls, 1 ≤ b) :
    List.Forall₂ (· < ·) (shrink_balls balls R) balls := by
  rw [shrink_balls, List.forall₂_map_left_iff, List.forall₂_same]
  intro b hbm
  have hb1 : 1 ≤ b := hb b hbm
  have heq : b * ((R - b) / R) = b * (R - b) / R := by ring
  rw [heq, div_lt_iff₀ hR]
  nlinarith

/-- Repeated shrink passes never increase the weights pointwise. -/
theorem odds_after_le (s : Nat) :
    ∀ (balls : List ℚ) (R : ℚ), (∀ b ∈ balls, 0 ≤ b ∧ b ≤ R) → (s : ℚ) + 1 ≤ R →
      List.Forall₂ (· ≤ ·) (odds_after s balls R).1 balls := by
  induction s with
  | zero =>
    intro balls _R _hb _hR
    exact List.forall₂_same.2 (fun x _ => le_refl x)
  | succ s ih =>
    intro balls R hb hR
    have hs0 : (0 : ℚ) ≤ (s : ℚ) := Nat.cast_nonneg s
    have hR2 : 2 ≤ R := by push_cast at hR; linarith
    have hR0 : (0 : ℚ) < R := by linarith
    have hstep := shrink_balls_le balls R hR0 hb
    have hbounds := shrink_balls_bounds balls R hR2 hb
    have hrec := ih (shrink_balls balls R) (R - 1) hbounds (by push_cast at hR ⊢; linarith)
    have hun : odds_after (s + 1) balls R =
        odds_after s (shrink_balls balls R) (R - 1) := rfl
    rw [hun]
    exact @forall₂_comp ℚ (· ≤ ·) (· ≤ ·) (· ≤ ·)
      (fun _ _ _ hab hbc => le_trans hab hbc) _ _ _ hrec hstep

/-- A list of naturals that are all at least 1 sums to at least its
length. -/
theorem length_le_sum_of_one_le (l : List ℕ) (h : ∀ x ∈ l, 1 ≤ x) :
    l.length ≤ l.sum := by
  induction l with
  | nil => simp
  | cons a l ih =>
    simp only [List.length_cons, List.sum_cons]
    have h1 := ih (fun x hx => h x (by simp [hx]))
    have ha := h a (by simp)
    omega

/-- Integer weights that are all at least 1, viewed as rationals, lie in
`[0, total]` where `total` is their sum. -/
theorem cast_weights_bounds (ws : List ℕ) :
    ∀ b ∈ ws.map (Nat.cast : ℕ → ℚ), 0 ≤ b ∧ b ≤ (ws.sum : ℚ) := by
  intro b hb
  obtain ⟨w, hw, rfl⟩ := List.mem_map.1 hb
  refine ⟨Nat.cast_nonneg w, ?_⟩
  rw [Nat.cast_list_sum]
  exact List.single_le_sum
    (fun x hx => by
      obtain ⟨y, _, rfl⟩ := List.mem_map.1 hx
      exact Nat.cast_nonneg y)
    _ (List.mem_map.2 ⟨w, hw, rfl⟩)

/-! ## Claim theorems -/

/-- Claim C1: for every valid resolver output (order a duplicate-free
permutation of the managers, weights of equal length, every weight at
least 1) and every randomness stream, the draw loop succeeds and returns
a permutation of the participants, of length exactly N. -/
theorem run_lottery_permutation (idxs : Nat → Nat) (managers order : List String)
    (balls : List Nat) (hperm : order.Perm managers) (hnodup : order.Nodup)
    (hlen : balls.length = order.length) (hpos : ∀ b ∈ balls, 1 ≤ b) :
    ∃ res, run_lottery idxs managers order balls = some res ∧
      res.Perm managers ∧ res.length = managers.length := by
  have hNlen : managers.length = order.length := hperm.length_eq.symm
  obtain ⟨res, hres, hresperm⟩ :=
    draw_loop_perm idxs order hnodup managers.length [] (build_pool order balls)
      List.nodup_nil (by simp)
      (fun p => by simp [build_pool_mem order balls hlen hpos])
      (by simpa using hNlen)
  exact ⟨res, hres, hresperm.trans hperm, (hresperm.trans hperm).length_eq⟩

/-- Witness for C1 at managers = [A, B], order = [B, A], balls = [2, 1]. -/
theorem run_lottery_permutation_witness :
    ∃ res, run_lottery (fun _ => 0) ["A", "B"] ["B", "A"] [2, 1] = some res ∧
      res.Perm ["A", "B"] ∧ res.length = (["A", "B"] : List String).length :=
  run_lottery_permutation (fun _ => 0) ["A", "B"] ["B", "A"] [2, 1]
    (by decide) (by decide) (by decide) (by decide)

/-- Claim C2 (code bug witness): with a Custom distribution whose order
and balls arrays have mismatched lengths, `run_lottery` does not fail
with a configuration error before randomness is consumed.  It silently
builds a truncated pool via `zip` (here the pool [A] for order [A, B]),
draws from it, and only then dies with an `IndexError` (modelled by
`none`) when the pool runs dry mid-draw. -/
theorem run_lottery_mismatched_custom_arrays :
    build_pool ["A", "B"] [1] = ["A"] ∧
      run_lottery (fun _ => 0) ["A", "B"] ["A", "B"] [1] = none :=
  ⟨rfl, rfl⟩

/-- Claim C3 (code bug witness): at weights [2, 1], total 3, pick
position 2, the iterative-shrink method gives participant 1 probability
1/3 while brute-force enumeration over all orderings gives 2/3 — a
deviation of 1/3, far beyond 0.1 percentage points. -/
theorem exact_pick_odds_brute_force_mismatch :
    exact_pick_odds [2, 1] 3 2 = some [1 / 3, 1 / 3] ∧
      true_pick_prob [2, 1] 1 2 = 2 / 3 ∧
      ¬ |(1 / 3 : ℚ) - 2 / 3| ≤ 1 / 1000 := by
  refine ⟨by norm_num [exact_pick_odds, odds_loop, odds_step],
    by norm_num [true_pick_prob, all_orderings, insert_all, perm_prob], ?_⟩
  have h : |(1 / 3 : ℚ) - 2 / 3| = 1 / 3 := by
    rw [abs_sub_comm, abs_of_nonneg (by norm_num)]
    norm_num
  rw [h]
  norm_num

/-- Claim C4 (code bug witness): at N = 2, weights [2, 1], pick position
2, the column of the exact odds matrix sums to 2/3, which is 33
percentage points away from 1 — far beyond the claimed 0.5. -/
theorem exact_pick_odds_column_sum_mismatch :
    ((exact_pick_odds [2, 1] 3 2).getD []).sum = 2 / 3 ∧
      ¬ |(2 / 3 : ℚ) - 1| ≤ 5 / 1000 := by
  refine ⟨by norm_num [exact_pick_odds, odds_loop, odds_step], ?_⟩
  have h : |(2 / 3 : ℚ) - 1| = 1 / 3 := by
    rw [abs_sub_comm, abs_of_nonneg (by norm_num)]
    norm_num
  rw [h]
  norm_num

/-- Claim C5: for integer weights all at least 1, total equal to their
sum, and a pick position k with 1 <= k <= N, every value returned by
`exact_pick_odds` lies in the closed interval [0, 1]. -/
theorem exact_pick_odds_unit_interval (ws : List ℕ) (k : Nat) (probs : List ℚ)
    (hpos : ∀ w ∈ ws, 1 ≤ w) (hk1 : 1 ≤ k) (hkN : k ≤ ws.length)
    (hres : exact_pick_odds (ws.map (Nat.cast : ℕ → ℚ)) (ws.sum : ℚ) k = some probs) :
    ∀ x ∈ probs, 0 ≤ x ∧ x ≤ 1 := by
  rw [exact_pick_odds_eq _ _ k hk1] at hres
  have hN : ws.length ≤ ws.sum := length_le_sum_of_one_le ws hpos
  have hc : ((k - 1 : ℕ) : ℚ) + 1 ≤ (ws.sum : ℚ) := by
    have h1 : (k - 1) + 1 ≤ ws.sum := by omega
    exact_mod_cast h1
  obtain ⟨hrem, hballs⟩ :=
    odds_after_bounds (k - 1) (ws.map (Nat.cast : ℕ → ℚ)) (ws.sum : ℚ)
      (cast_weights_bounds ws) hc
  have hrem_pos :
      0 < (odds_after (k - 1) (ws.map (Nat.cast : ℕ → ℚ)) (ws.sum : ℚ)).2 := by
    rw [hrem]; linarith
  have hpe := Option.some_inj.1 hres
  subst hpe
  intro x hx
  obtain ⟨b, hbm, rfl⟩ := List.mem_map.1 hx
  obtain ⟨hb0, hbu⟩ := hballs b hbm
  refine ⟨div_nonneg hb0 (le_of_lt hrem_pos), ?_⟩
  rw [div_le_one hrem_pos, hrem]
  exact hbu

/-- Witness for C5 at weights [1, 1] and pick position 1. -/
theorem exact_pick_odds_unit_interval_witness :
    0 ≤ (1 : ℚ) / 2 ∧ (1 : ℚ) / 2 ≤ 1 :=
  exact_pick_odds_unit_interval [1, 1] 1 [1 / 2, 1 / 2]
    (by decide) (by decide) (by decide)
    (by norm_num [exact_pick_odds, odds_loop, odds_step])
    (1 / 2) (by norm_num)

/-- Claim C6: if the entry pool holds fewer distinct participants than
the league has managers, the draw fails explicitly (the IndexError of
`random.choice` on an empty pool, modelled by `none`); and whenever the
draw does return a draft order, that order has exactly N entries — a
short order is never returned as a final result. -/
theorem run_lottery_never_short (idxs : Nat → Nat) (managers order : List String)
    (balls : List Nat) :
    ((build_pool order balls).toFinset.card < managers.length →
        run_lottery idxs managers order balls = none) ∧
      ∀ res, run_lottery idxs managers order balls = some res →
        res.length = managers.length := by
  constructor
  · intro hcard
    cases hres : run_lottery idxs managers order balls with
    | none => rfl
    | some res =>
      have hk := draw_loop_some_card idxs managers.length [] (build_pool order balls)
        res hres
      omega
  · intro res hres
    simpa using draw_loop_some_length idxs managers.length [] (build_pool order balls)
      res hres

/-- Witness for C6: with a zero weight the pool misses a participant
and the draw aborts with `none`. -/
theorem run_lottery_never_short_witness :
    run_lottery (fun _ => 0) ["A", "B"] ["A", "B"] [1, 0] = none :=
  (run_lottery_never_short (fun _ => 0) ["A", "B"] ["A", "B"] [1, 0]).1 (by decide)

/-- Claim C7: at N = 2 with weights [1, 1] and total 2, exact_pick_odds
returns [1/2, 1/2] both for pick position 1 and for pick position 2: the
unconditional 50 percent, not the conditional 100 percent. -/
theorem exact_pick_odds_two_equal_weights :
    exact_pick_odds [1, 1] 2 1 = some [1 / 2, 1 / 2] ∧
      exact_pick_odds [1, 1] 2 2 = some [1 / 2, 1 / 2] := by
  refine ⟨by norm_num [exact_pick_odds, odds_loop, odds_step],
    by norm_num [exact_pick_odds, odds_loop, odds_step]⟩

/-- Claim C8: the odds report (simplified first-pick odds together with
the exact odds matrix) is identical for any two successful lottery runs
over the same order and weights, whatever their randomness streams: the
computation depends on the realized draft order only through its length,
which is the same for all runs. -/
theorem lottery_odds_seed_independent (managers order : List String)
    (balls : List Nat) (qballs : List ℚ) (total : ℚ) (idxs1 idxs2 : Nat → Nat)
    (res1 res2 : List String)
    (h1 : run_lottery idxs1 managers order balls = some res1)
    (h2 : run_lottery idxs2 managers order balls = some res2) :
    lottery_odds_report qballs total res1 = lottery_odds_report qballs total res2 := by
  have e1 := draw_loop_some_length idxs1 managers.length [] (build_pool order balls)
    res1 h1
  have e2 := draw_loop_some_length idxs2 managers.length [] (build_pool order balls)
    res2 h2
  have hlen : res1.length = res2.length := by simp at e1 e2; omega
  simp [lottery_odds_report, exact_odds_matrix, hlen]

/-- Witness for C8: two seeds that realize the two different
permutations of two equally weighted participants still yield the same
odds report. -/
theorem lottery_odds_seed_independent_witness :
    lottery_odds_report [1, 1] 2 ["A", "B"] = lottery_odds_report [1, 1] 2 ["B", "A"] :=
  lottery_odds_seed_independent ["A", "B"] ["A", "B"] [1, 1] [1, 1] 2
    (fun _ => 0) (fun _ => 1) ["A", "B"] ["B", "A"] (by decide) (by decide)

/-- Claim C9: for every weights list with positive total, the first row
of the exact odds matrix is exactly the simplified first-pick odds: pick
position 1 returns w / total for each weight w, and scaling both figures
by 100 as the report does makes them literally the same column. -/
theorem exact_pick_odds_first_pick (ws : List ℕ) (_hpos : 0 < ws.sum) :
    exact_pick_odds (ws.map (Nat.cast : ℕ → ℚ)) (ws.sum : ℚ) 1 =
        some (ws.map (fun w => (Nat.cast w : ℚ) / (ws.sum : ℚ))) ∧
      (ws.map (fun w => (Nat.cast w : ℚ) / (ws.sum : ℚ))).map this_pick_odds =
        ws.map (fun w => first_overall_odds (Nat.cast w : ℚ) (ws.sum : ℚ)) := by
  constructor
  · rw [exact_pick_odds_eq _ _ 1 (le_refl 1)]
    rw [show (1 : ℕ) - 1 = 0 from rfl]
    rw [show odds_after 0 (ws.map (Nat.cast : ℕ → ℚ)) (ws.sum : ℚ) =
        (ws.map (Nat.cast : ℕ → ℚ), (ws.sum : ℚ)) from rfl]
    rw [List.map_map]
    rfl
  · rw [List.map_map]
    rfl

/-- Witness for C9 at weights [2, 1]. -/
theorem exact_pick_odds_first_pick_witness :
    exact_pick_odds ([2, 1].map (Nat.cast : ℕ → ℚ)) (([2, 1] : List ℕ).sum : ℚ) 1 =
        some ([2, 1].map (fun w => (Nat.cast w : ℚ) / (([2, 1] : List ℕ).sum : ℚ))) ∧
      (([2, 1] : List ℕ).map
            (fun w => (Nat.cast w : ℚ) / (([2, 1] : List ℕ).sum : ℚ))).map this_pick_odds =
        ([2, 1] : List ℕ).map
          (fun w => first_overall_odds (Nat.cast w : ℚ) (([2, 1] : List ℕ).sum : ℚ)) :=
  exact_pick_odds_first_pick [2, 1] (by decide)

/-- Claim C10: for every pick position k at least 2 (with valid weights),
the `manager_balls` list `exact_pick_odds` was given ends up strictly
pointwise below its original values — the function mutates its input in
place and never restores it — and a caller that reused one list across
the pick positions (instead of the fresh copy `save_lottery_result`
takes) would obtain a different, corrupted odds matrix. -/
theorem exact_pick_odds_mutates_input (ws : List ℕ) (k : Nat)
    (hpos : ∀ w ∈ ws, 1 ≤ w) (hk2 : 2 ≤ k) (hkN : k ≤ ws.length) :
    List.Forall₂ (· < ·)
        (exact_pick_odds_final_balls (ws.map (Nat.cast : ℕ → ℚ)) (ws.sum : ℚ) k)
        (ws.map (Nat.cast : ℕ → ℚ)) ∧
      exact_odds_matrix_shared [1, 1, 1] 3 3 ≠
        exact_odds_matrix [1, 1, 1] 3 ["A", "B", "C"] := by
  constructor
  · rw [exact_pick_odds_final_balls_eq _ _ k (by omega)]
    have hk1 : k - 1 = (k - 2) + 1 := by omega
    rw [hk1]
    have hun : odds_after ((k - 2) + 1) (ws.map (Nat.cast : ℕ → ℚ)) (ws.sum : ℚ) =
        odds_after (k - 2) (shrink_balls (ws.map (Nat.cast : ℕ → ℚ)) (ws.sum : ℚ))
          ((ws.sum : ℚ) - 1) := rfl
    rw [hun]
    have hsumN : ws.length ≤ ws.sum := length_le_sum_of_one_le ws hpos
    have htot2 : (2 : ℚ) ≤ (ws.sum : ℚ) := by
      exact_mod_cast show 2 ≤ ws.sum by omega
    have htot0 : (0 : ℚ) < (ws.sum : ℚ) := by linarith
    have hshrB := shrink_balls_bounds (ws.map (Nat.cast : ℕ → ℚ)) (ws.sum : ℚ)
      htot2 (cast_weights_bounds ws)
    have hcast2 : ((k - 2 : ℕ) : ℚ) + 1 ≤ (ws.sum : ℚ) - 1 := by
      have h1 : (k - 2) + 2 ≤ ws.sum := by omega
      have h2 : ((k - 2 : ℕ) : ℚ) + 2 ≤ (ws.sum : ℚ) := by exact_mod_cast h1
      linarith
    have hmono := odds_after_le (k - 2)
      (shrink_balls (ws.map (Nat.cast : ℕ → ℚ)) (ws.sum : ℚ)) ((ws.sum : ℚ) - 1)
      hshrB hcast2
    have hstrict := shrink_balls_lt (ws.map (Nat.cast : ℕ → ℚ)) (ws.sum : ℚ) htot0
      (fun b hb => by
        obtain ⟨w, hw, rfl⟩ := List.mem_map.1 hb
        exact_mod_cast hpos w hw)
    exact @forall₂_comp ℚ (· ≤ ·) (· < ·) (· < ·)
      (fun _ _ _ hab hbc => lt_of_le_of_lt hab hbc) _ _ _ hmono hstrict
  · norm_num [exact_odds_matrix_shared, shared_rows, exact_odds_matrix,
      exact_pick_odds, exact_pick_odds_final_balls, odds_loop, odds_step,
      List.range_succ]

/-- Witness for C10 at weights [1, 1] and pick position 2. -/
theorem exact_pick_odds_mutates_input_witness :
    List.Forall₂ (· < ·)
        (exact_pick_odds_final_balls ([1, 1].map (Nat.cast : ℕ → ℚ))
          ((([1, 1] : List ℕ).sum : ℚ)) 2)
        ([1, 1].map (Nat.cast : ℕ → ℚ)) ∧
      exact_odds_matrix_shared [1, 1, 1] 3 3 ≠
        exact_odds_matrix [1, 1, 1] 3 ["A", "B", "C"] :=
  exact_pick_odds_mutates_input [1, 1] 2 (by decide) (by decide) (by decide)

end FantasyLottery
